import Mathlib

/-!
A verification development for the `lexer` Go package (markcol/lexer), a
generic lexical scanner in the style of Rob Pike's talk "Lexical Scanning
in Go" (src/lexer.go).

Modelling conventions:
* Go strings are modelled as `List Nat` of byte values (each `< 256`);
  byte offsets are modelled as `Int`, matching Go's signed `int` used for
  `Start`, `Pos` and `Width` (lexer.go:52-55).
* Runes are modelled as `Int`; `EOF = -1` (lexer.go:28) and the Unicode
  replacement character is `0xFFFD`.
* `utf8.DecodeRuneInString` is embedded byte-for-byte as `decodeRune`,
  including the handling of malformed input (result `(0xFFFD, 1)`) and of
  empty input (result `(0xFFFD, 0)`).
-/

namespace GoLexer

/-! ## Definitions (the shallow embedding of src/lexer.go) -/

/-- A continuation byte of a UTF-8 sequence: `0x80 ≤ b ≤ 0xBF`. -/
abbrev isCont (b : Nat) : Prop := 0x80 ≤ b ∧ b < 0xC0

/-- The accepted range for the second byte of a three-byte UTF-8 sequence,
depending on the first byte (the `acceptRanges` table of `unicode/utf8`):
`0xE0` requires `A0..BF`, `0xED` requires `80..9F`, the rest `80..BF`. -/
abbrev isAccept3 (b0 b1 : Nat) : Prop :=
  (b0 = 0xE0 ∧ 0xA0 ≤ b1 ∧ b1 < 0xC0) ∨
  (0xE1 ≤ b0 ∧ b0 ≤ 0xEC ∧ isCont b1) ∨
  (b0 = 0xED ∧ 0x80 ≤ b1 ∧ b1 < 0xA0) ∨
  (0xEE ≤ b0 ∧ b0 ≤ 0xEF ∧ isCont b1)

/-- The accepted range for the second byte of a four-byte UTF-8 sequence,
depending on the first byte (the `acceptRanges` table of `unicode/utf8`):
`0xF0` requires `90..BF`, `0xF4` requires `80..8F`, the rest `80..BF`. -/
abbrev isAccept4 (b0 b1 : Nat) : Prop :=
  (b0 = 0xF0 ∧ 0x90 ≤ b1 ∧ b1 < 0xC0) ∨
  (0xF1 ≤ b0 ∧ b0 ≤ 0xF3 ∧ isCont b1) ∨
  (b0 = 0xF4 ∧ 0x80 ≤ b1 ∧ b1 < 0x90)

/-- Embedding of `utf8.DecodeRuneInString`: decodes the first code point of
a byte sequence, returning the rune and its width in bytes.  An empty input
yields `(0xFFFD, 0)`; any malformed, overlong, surrogate or truncated
sequence yields `(0xFFFD, 1)`. -/
def decodeRune : List Nat → Int × Nat
  | [] => (0xFFFD, 0)
  | b0 :: tail =>
    if b0 < 0x80 then ((b0 : Int), 1)
    else if b0 < 0xC2 then (0xFFFD, 1)
    else if b0 < 0xE0 then
      match tail with
      | b1 :: _ =>
        if isCont b1 then (((b0 : Int) - 0xC0) * 0x40 + ((b1 : Int) - 0x80), 2)
        else (0xFFFD, 1)
      | [] => (0xFFFD, 1)
    else if b0 < 0xF0 then
      match tail with
      | b1 :: b2 :: _ =>
        if isAccept3 b0 b1 ∧ isCont b2 then
          (((b0 : Int) - 0xE0) * 0x1000 + ((b1 : Int) - 0x80) * 0x40 +
            ((b2 : Int) - 0x80), 3)
        else (0xFFFD, 1)
      | _ => (0xFFFD, 1)
    else if b0 < 0xF5 then
      match tail with
      | b1 :: b2 :: b3 :: _ =>
        if isAccept4 b0 b1 ∧ isCont b2 ∧ isCont b3 then
          (((b0 : Int) - 0xF0) * 0x40000 + ((b1 : Int) - 0x80) * 0x1000 +
            ((b2 : Int) - 0x80) * 0x40 + ((b3 : Int) - 0x80), 4)
        else (0xFFFD, 1)
      | _ => (0xFFFD, 1)
    else (0xFFFD, 1)

/-- Rune returned to indicate end of input: `const EOF = -1` (lexer.go:28). -/
def EOF : Int := -1

/-- A token returned from the scanner (lexer.go:22-26): type tag `Typ`
(`-1` end-of-input, `-2` error, non-negative values caller-defined),
covered text `val` and starting byte offset `pos`. -/
structure Token where
  typ : Int
  val : List Nat
  pos : Int
deriving DecidableEq

/-- The cursor part of the scanner state (lexer.go:48-57): the input, the
start offset of the pending token, the current scan offset and the width of
the last decode.  The `name` field (used only for error reports, and in
fact never read) and the driver fields (`state`, `tokens`, `lastPos`) are
modelled separately. -/
structure Lexer where
  input : List Nat
  start : Int
  pos : Int
  width : Int
deriving DecidableEq

/-- Go slicing `input[a:b]`, defined for `0 ≤ a ≤ b ≤ len input` (Go panics
outside that range; all uses below stay inside it). -/
def sliceStr (input : List Nat) (a b : Int) : List Nat :=
  (input.take b.toNat).drop a.toNat

/-- The cursor of a freshly constructed scanner (`NewLexer`, lexer.go:60-69):
`Start = Pos = Width = 0`. -/
def newLexer (input : List Nat) : Lexer := ⟨input, 0, 0, 0⟩

/-- `Next` (lexer.go:104-113): at or past the end of input, record width `0`
and return `EOF`; otherwise decode one rune, record its width and advance. -/
def Lexer.next (l : Lexer) : Int × Lexer :=
  if (l.input.length : Int) ≤ l.pos then (EOF, { l with width := 0 })
  else
    let d := decodeRune (l.input.drop l.pos.toNat)
    (d.1, { l with width := (d.2 : Int), pos := l.pos + (d.2 : Int) })

/-- `Backup` (lexer.go:122-124): step back by the last recorded width. -/
def Lexer.backup (l : Lexer) : Lexer := { l with pos := l.pos - l.width }

/-- `Peek` (lexer.go:128-132): `Next` followed by `Backup`. -/
def Lexer.peek (l : Lexer) : Int × Lexer :=
  let p := l.next
  (p.1, p.2.backup)

/-- `Ignore` (lexer.go:116-118): discard the pending text. -/
def Lexer.ignore (l : Lexer) : Lexer := { l with start := l.pos }

/-- `Emit` (lexer.go:98-101): build the token `{t, input[Start:Pos], Start}`
(which `Emit` sends on the token channel) and advance `Start` to `Pos`. -/
def Lexer.emit (l : Lexer) (t : Int) : Token × Lexer :=
  (⟨t, sliceStr l.input l.start l.pos, l.start⟩, { l with start := l.pos })

/-- `utf8.ValidRune`: a value in `0..0x10FFFF` excluding the surrogate
range `0xD800..0xDFFF`. -/
def validRune (r : Int) : Bool :=
  decide ((0 ≤ r ∧ r < 0xD800) ∨ (0xDFFF < r ∧ r ≤ 0x10FFFF))

/-- `strings.IndexRune(valid, r) >= 0`, with the set of valid characters
modelled as its sequence of runes (assuming, as every caller does, that the
`valid` string is well-formed UTF-8): an invalid rune (such as `EOF = -1`)
is never found; a valid rune is found exactly when it occurs in the set. -/
def runeFound (valid : List Int) (r : Int) : Bool :=
  validRune r && valid.contains r

/-- `Accept` (lexer.go:136-142): consume the next rune if it is in the
valid set, otherwise back up and report `false`. -/
def Lexer.accept (l : Lexer) (valid : List Int) : Bool × Lexer :=
  let p := l.next
  if runeFound valid p.1 then (true, p.2) else (false, p.2.backup)

/-- The loop of `AcceptRun` (lexer.go:145-149), with explicit fuel.  Each
iteration with a match advances `pos` by at least one byte, so from any
state with `0 ≤ pos` the fuel `input.length + 1` used by `Lexer.acceptRun`
is never exhausted (for `pos < 0` Go panics on the slice in `Next`). -/
def Lexer.acceptRunAux : Nat → Lexer → List Int → Lexer
  | 0, l, _ => l
  | fuel + 1, l, valid =>
    let p := l.next
    if runeFound valid p.1 then Lexer.acceptRunAux fuel p.2 valid
    else p.2.backup

/-- `AcceptRun` (lexer.go:145-149): consume a run of runes from the valid
set, then back up over the one non-matching decode. -/
def Lexer.acceptRun (l : Lexer) (valid : List Int) : Lexer :=
  Lexer.acceptRunAux (l.input.length + 1) l valid

/-- The cursor invariant of the data model: `0 ≤ Start ≤ Pos ≤ len(input)`. -/
abbrev Inv (l : Lexer) : Prop :=
  0 ≤ l.start ∧ l.start ≤ l.pos ∧ l.pos ≤ (l.input.length : Int)

/-- Length of the maximal run of code points from `valid` at the head of a
byte sequence (the loop of the body below runs at most `s.length` times
since every decode consumes at least one byte). -/
def runLenAux (valid : List Int) : Nat → List Nat → Nat
  | 0, _ => 0
  | _ + 1, [] => 0
  | fuel + 1, b :: tail =>
    if runeFound valid (decodeRune (b :: tail)).1 then
      (decodeRune (b :: tail)).2 +
        runLenAux valid fuel ((b :: tail).drop (decodeRune (b :: tail)).2)
    else 0

/-- Length of the maximal run of code points from `valid` at the head of a
byte sequence: repeatedly decode and add widths while the decoded rune is
found in the set. -/
def runLen (valid : List Int) (s : List Nat) : Nat := runLenAux valid s.length s

/-- A maximal run of members of `valid`: `MaxRun valid s k` states that the
first `k` bytes of `s` decompose into the encodings of successive code
points all found in `valid`, and that the run stops only at the end of the
input or at a decode whose code point is not in `valid`. -/
inductive MaxRun (valid : List Int) : List Nat → Nat → Prop where
  | atEnd : MaxRun valid [] 0
  | stop (s : List Nat) :
      runeFound valid (decodeRune s).1 = false → MaxRun valid s 0
  | step (s : List Nat) (k : Nat) :
      s ≠ [] → runeFound valid (decodeRune s).1 = true →
      MaxRun valid (s.drop (decodeRune s).2) k →
      MaxRun valid s ((decodeRune s).2 + k)

/-- The primitive cursor operations a state function may perform; grammars
within a single scan are modelled as traces of these operations (branching
on the scanned runes is subsumed by the choice of trace).  Scans that call
`Errorf` are modelled by the driver model below. -/
inductive Op where
  | next
  | backup
  | peek
  | ignore
  | accept (valid : List Int)
  | acceptRun (valid : List Int)
  | emit (t : Int)
deriving DecidableEq

/-- Effect of one cursor operation on the lexer, together with the list of
tokens it sends on the token channel. -/
def applyOp (l : Lexer) : Op → Lexer × List Token
  | .next => ((l.next).2, [])
  | .backup => (l.backup, [])
  | .peek => ((l.peek).2, [])
  | .ignore => (l.ignore, [])
  | .accept v => ((l.accept v).2, [])
  | .acceptRun v => (l.acceptRun v, [])
  | .emit t => ((l.emit t).2, [(l.emit t).1])

/-- Execution of a trace of cursor operations, collecting emitted tokens in
emission order (the token channel is a FIFO, so this is also the delivery
order of `NextToken`). -/
def exec (l : Lexer) : List Op → Lexer × List Token
  | [] => (l, [])
  | op :: rest =>
    ((exec (applyOp l op).1 rest).1, (applyOp l op).2 ++ (exec (applyOp l op).1 rest).2)

/-- Protocol-respecting traces: `Backup` appears only immediately after a
`Next`, at most once per decode ("Can be called only once per call of
next", lexer.go:121).  `Peek`, `Accept` and `AcceptRun` perform their own
internal backup and use up the pending decode. -/
inductive Proto : List Op → Prop where
  | nil : Proto []
  | next (k : List Op) : Proto k → Proto (Op.next :: k)
  | nextBackup (k : List Op) : Proto k → Proto (Op.next :: Op.backup :: k)
  | peek (k : List Op) : Proto k → Proto (Op.peek :: k)
  | ignore (k : List Op) : Proto k → Proto (Op.ignore :: k)
  | accept (v : List Int) (k : List Op) : Proto k → Proto (Op.accept v :: k)
  | acceptRun (v : List Int) (k : List Op) : Proto k → Proto (Op.acceptRun v :: k)
  | emit (t : Int) (k : List Op) : Proto k → Proto (Op.emit t :: k)

/-- Deep embedding of a state-function body (`StateFn`, lexer.go:43-45): a
sequence of cursor-primitive calls ending in the return of the next state
(an index into the grammar's family of state functions, `none` = nil).
Each continuation receives exactly the value the Go caller observes.  In
`errorfB`, `fmt.Sprintf(format, args...)` is abstracted as the already
formatted message `msg`; the continuation receives the `StateFn` value
`Errorf` returns. -/
inductive Body where
  | ret (nxt : Option Nat)
  | nextB (k : Int → Body)
  | backupB (k : Body)
  | peekB (k : Int → Body)
  | ignoreB (k : Body)
  | acceptB (valid : List Int) (k : Bool → Body)
  | acceptRunB (valid : List Int) (k : Body)
  | emitB (t : Int) (k : Body)
  | errorfB (msg : List Nat) (k : Option Nat → Body)

/-- Capacity of the token channel: `make(chan Token, 2)` (lexer.go:65). -/
def chanCap : Nat := 2

/-- A send on the token channel: succeeds when a buffer slot is free;
otherwise the sender blocks. -/
def chanSend (buf : List Token) (t : Token) : Option (List Token) :=
  if buf.length < chanCap then some (buf ++ [t]) else none

/-- Result of running one state-function body to its return. -/
inductive BodyOut where
  | ok (l : Lexer) (buf : List Token) (nxt : Option Nat)
  | blocked
deriving DecidableEq

/-- One state-function invocation in the sequential driver semantics:
cursor primitives update the cursor, `Emit` (lexer.go:98-101) sends
`{t, input[Start:Pos], Start}` and `Errorf` (lexer.go:154-161) sends
`{TokenError, msg, Start}` on the channel; a send with a full buffer and
nobody draining blocks forever. -/
def execBody (l : Lexer) (buf : List Token) : Body → BodyOut
  | .ret nxt => .ok l buf nxt
  | .nextB k => execBody (l.next).2 buf (k (l.next).1)
  | .backupB k => execBody l.backup buf k
  | .peekB k => execBody (l.peek).2 buf (k (l.peek).1)
  | .ignoreB k => execBody l.ignore buf k
  | .acceptB v k => execBody (l.accept v).2 buf (k (l.accept v).1)
  | .acceptRunB v k => execBody (l.acceptRun v) buf k
  | .emitB t k =>
    match chanSend buf (l.emit t).1 with
    | some buf2 => execBody (l.emit t).2 buf2 k
    | none => .blocked
  | .errorfB msg k =>
    match chanSend buf ⟨-2, msg, l.start⟩ with
    | some buf2 => execBody l buf2 (k none)
    | none => .blocked

/-- The driver-visible scanner state: the cursor, the channel buffer, the
current state function (`none` = nil, lexer.go:51) and the `lastPos`
bookkeeping (lexer.go:54). -/
structure Scan where
  lex : Lexer
  buf : List Token
  state : Option Nat
  lastPos : Int
deriving DecidableEq

/-- Outcome of one `NextToken` call. -/
inductive NTResult where
  | tok (t : Token) (s : Scan)
  | panicNilState
  | blockedSend
  | outOfFuel
deriving DecidableEq

/-- `NextToken` (lexer.go:84-95) in the sequential consumer-driven
semantics: loop - when a token is buffered, deliver it and record its
position in `lastPos` (lexer.go:88); otherwise invoke the current state
function (`l.state = l.state(l)`, lexer.go:91).  When the current state is
nil, Go invokes a nil function value: a runtime panic (`panicNilState`).
`fuel` bounds the loop; a grammar that never emits spins forever
(`outOfFuel`). -/
def nextTokenAux (g : Nat → Body) : Nat → Scan → NTResult
  | 0, _ => .outOfFuel
  | fuel + 1, s =>
    match s.buf with
    | t :: rest => .tok t { s with buf := rest, lastPos := t.pos }
    | [] =>
      match s.state with
      | none => .panicNilState
      | some i =>
        match execBody s.lex [] (g i) with
        | .blocked => .blockedSend
        | .ok l2 buf2 nxt =>
          nextTokenAux g fuel { lex := l2, buf := buf2, state := nxt, lastPos := s.lastPos }

/-- Abstraction of the two state-function drivers of a single scan: the
background task `run` (lexer.go:72-76, started by `go l.run()` at
lexer.go:67) and the consumer's `NextToken` (lexer.go:84-95), whose
`default` branch also invokes the current state function inline.
`hasState` abstracts "the current state function is non-nil"; `bufEmpty`
abstracts "the token channel holds no token"; `runBusy`/`consBusy` mean
the respective driver is currently inside a state-function invocation. -/
structure DriverCfg where
  hasState : Bool
  bufEmpty : Bool
  runBusy : Bool
  consBusy : Bool
deriving DecidableEq

/-- Interleaving steps of the two drivers, read off the source.  Nothing
in the code synchronizes the background task's invocation `state = state(l)`
(lexer.go:74) with the consumer's inline invocation `l.state = l.state(l)`
(lexer.go:91): the only guards are the run loop's condition `state != nil`
(lexer.go:73) and the consumer's `select` taking the `default` branch when
the channel has no buffered token (lexer.go:86-91). -/
inductive DriverStep : DriverCfg → DriverCfg → Prop where
  | runInvoke (c : DriverCfg) : c.hasState = true → c.runBusy = false →
      DriverStep c { c with runBusy := true }
  | runEmit (c : DriverCfg) : c.runBusy = true →
      DriverStep c { c with bufEmpty := false }
  | runReturn (c : DriverCfg) (more : Bool) : c.runBusy = true →
      DriverStep c { c with runBusy := false, hasState := more }
  | consInvoke (c : DriverCfg) : c.bufEmpty = true → c.consBusy = false →
      DriverStep c { c with consBusy := true }
  | consEmit (c : DriverCfg) : c.consBusy = true →
      DriverStep c { c with bufEmpty := false }
  | consReturn (c : DriverCfg) (more : Bool) : c.consBusy = true →
      DriverStep c { c with consBusy := false, hasState := more }
  | consReceive (c : DriverCfg) : c.bufEmpty = false → c.consBusy = false →
      DriverStep c { c with bufEmpty := true }

/-- The configuration right after `NewLexer` (lexer.go:60-69) returns: a
non-nil state function, an empty channel, no invocation running yet. -/
def initCfg : DriverCfg := ⟨true, true, false, false⟩

/-- Lowercase hex digit, as in `strconv`'s `lowerhex` table. -/
def lowerHex (n : Nat) : Nat := if n < 10 then 48 + n else 87 + n

/-- Two lowercase hex digits of a byte. -/
def hex2 (b : Nat) : List Nat := [lowerHex (b / 16 % 16), lowerHex (b % 16)]

/-- Four lowercase hex digits. -/
def hex4 (n : Nat) : List Nat :=
  [lowerHex (n / 4096 % 16), lowerHex (n / 256 % 16), lowerHex (n / 16 % 16), lowerHex (n % 16)]

/-- Eight lowercase hex digits. -/
def hex8 (n : Nat) : List Nat := hex4 (n / 65536) ++ hex4 (n % 65536)

/-- `utf8.AppendRune`: the UTF-8 encoding of a rune; invalid values encode
the replacement character. -/
def encodeRune (r : Int) : List Nat :=
  if r < 0 ∨ (0x10FFFF : Int) < r ∨ ((0xD800 : Int) ≤ r ∧ r ≤ 0xDFFF) then [0xEF, 0xBF, 0xBD]
  else
    let n := r.toNat
    if n < 0x80 then [n]
    else if n < 0x800 then [0xC0 + n / 0x40, 0x80 + n % 0x40]
    else if n < 0x10000 then [0xE0 + n / 0x1000, 0x80 + n / 0x40 % 0x40, 0x80 + n % 0x40]
    else [0xF0 + n / 0x40000, 0x80 + n / 0x1000 % 0x40, 0x80 + n / 0x40 % 0x40, 0x80 + n % 0x40]

/-- `strconv`'s `appendEscapedRune` with `quote = '"'`, `ASCIIonly = false`
and `graphicOnly = false`, parameterized by the `unicode.IsPrint` table
`p` (the claims below hold for every choice of table, so the large Unicode
range tables are abstracted as a parameter). -/
def escapedRune (p : Int → Bool) (r : Int) : List Nat :=
  if r = 34 ∨ r = 92 then [92, r.toNat]
  else if p r then encodeRune r
  else if r = 7 then [92, 97]
  else if r = 8 then [92, 98]
  else if r = 12 then [92, 102]
  else if r = 10 then [92, 110]
  else if r = 13 then [92, 114]
  else if r = 9 then [92, 116]
  else if r = 11 then [92, 118]
  else if r < 32 ∨ r = 127 then 92 :: 120 :: hex2 r.toNat
  else if validRune r = false then 92 :: 117 :: hex4 0xFFFD
  else if r < 0x10000 then 92 :: 117 :: hex4 r.toNat
  else 92 :: 85 :: hex8 r.toNat

/-- The loop of the body of `strconv.Quote` (the loop runs at most
`s.length` times since every step consumes at least one byte). -/
def quoteBodyAux (p : Int → Bool) : Nat → List Nat → List Nat
  | 0, _ => []
  | _ + 1, [] => []
  | fuel + 1, b :: tail =>
    if (decodeRune (b :: tail)).2 = 1 ∧ (decodeRune (b :: tail)).1 = 0xFFFD then
      (92 :: 120 :: hex2 b) ++ quoteBodyAux p fuel tail
    else
      escapedRune p (decodeRune (b :: tail)).1 ++
        quoteBodyAux p fuel ((b :: tail).drop (decodeRune (b :: tail)).2)

/-- The body of `strconv.Quote` (through `quoteWith`): decode rune by
rune; a byte that is not part of a valid encoding (decode width 1 with the
replacement rune) is written `\xHH`; every other rune is escaped. -/
def quoteBody (p : Int → Bool) (s : List Nat) : List Nat := quoteBodyAux p s.length s

/-- `strconv.Quote` / the `fmt` verb `%q`: the escaped body between double
quote characters. -/
def goQuote (p : Int → Bool) (s : List Nat) : List Nat :=
  34 :: quoteBody p s ++ [34]

/-- `fmt`'s precision truncation for strings (as in `%.10q`): keep the
first `n` code points, an invalid byte counting as one code point. -/
def truncRunes : Nat → List Nat → List Nat
  | 0, _ => []
  | _ + 1, [] => []
  | n + 1, b :: tail =>
    (b :: tail).take (decodeRune (b :: tail)).2 ++
      truncRunes n ((b :: tail).drop (decodeRune (b :: tail)).2)

/-- `Token.String` (lexer.go:30-41), parameterized by the
`unicode.IsPrint` table: `"EOF"` for the end-of-input type, the raw value
for the error type, otherwise `fmt.Sprintf("%.10q...", Val)` when
`len(Val) > 10` and `fmt.Sprintf("%q", Val)` otherwise. -/
def tokenString (p : Int → Bool) (t : Token) : List Nat :=
  if t.typ = -1 then [69, 79, 70]
  else if t.typ = -2 then t.val
  else if 10 < t.val.length then goQuote p (truncRunes 10 t.val) ++ [46, 46, 46]
  else goQuote p t.val

/-- The first bytes of a byte sequence form one complete well-formed UTF-8
encoding (of a valid, non-overlong, non-surrogate code point). -/
def wellFormedFirst : List Nat → Bool
  | [] => false
  | [b0] => decide (b0 < 0x80)
  | [b0, b1] =>
    decide (b0 < 0x80) ||
    decide (0xC2 ≤ b0 ∧ b0 < 0xE0 ∧ isCont b1)
  | [b0, b1, b2] =>
    decide (b0 < 0x80) ||
    decide (0xC2 ≤ b0 ∧ b0 < 0xE0 ∧ isCont b1) ||
    decide (0xE0 ≤ b0 ∧ b0 < 0xF0 ∧ isAccept3 b0 b1 ∧ isCont b2)
  | b0 :: b1 :: b2 :: b3 :: _ =>
    decide (b0 < 0x80) ||
    decide (0xC2 ≤ b0 ∧ b0 < 0xE0 ∧ isCont b1) ||
    decide (0xE0 ≤ b0 ∧ b0 < 0xF0 ∧ isAccept3 b0 b1 ∧ isCont b2) ||
    decide (0xF0 ≤ b0 ∧ b0 < 0xF5 ∧ isAccept4 b0 b1 ∧ isCont b2 ∧ isCont b3)

/-! ## Theorems -/

theorem decodeRune_width_pos (b : Nat) (tail : List Nat) :
    1 ≤ (decodeRune (b :: tail)).2 := by
  rcases tail with _ | ⟨b1, _ | ⟨b2, _ | ⟨b3, t⟩⟩⟩ <;>
    simp only [decodeRune] <;> split_ifs <;> simp

theorem decodeRune_width_le (s : List Nat) :
    (decodeRune s).2 ≤ s.length := by
  rcases s with _ | ⟨b0, _ | ⟨b1, _ | ⟨b2, _ | ⟨b3, t⟩⟩⟩⟩ <;>
    simp only [decodeRune] <;> (try split_ifs) <;> simp

theorem drop_toNat_eq_nil (l : Lexer) (h : (l.input.length : Int) ≤ l.pos) :
    l.input.drop l.pos.toNat = [] := by
  apply List.drop_eq_nil_of_le
  omega

/-- Characterization of `Lexer.next`: the new state always has `width = w`
and `pos = pos + w`, where `w` is the width decoded at the current offset
(`0` at or past the end of the input). -/
theorem next_eq (l : Lexer) :
    (l.next).2 = { l with width := ((decodeRune (l.input.drop l.pos.toNat)).2 : Int),
                          pos := l.pos + ((decodeRune (l.input.drop l.pos.toNat)).2 : Int) } := by
  unfold Lexer.next
  split_ifs with h
  · rw [drop_toNat_eq_nil l h]
    obtain ⟨inp, st, po, wi⟩ := l
    simp [decodeRune]
  · rfl

theorem next_fst (l : Lexer) :
    (l.next).1 = if (l.input.length : Int) ≤ l.pos then EOF
                 else (decodeRune (l.input.drop l.pos.toNat)).1 := by
  unfold Lexer.next
  split_ifs <;> rfl

theorem next_inv (l : Lexer) (h : Inv l) :
    Inv (l.next).2 ∧ (l.next).2.start = l.start ∧ (l.next).2.input = l.input ∧
      l.pos ≤ (l.next).2.pos := by
  obtain ⟨h1, h2, h3⟩ := h
  have hw := decodeRune_width_le (l.input.drop l.pos.toNat)
  rw [List.length_drop] at hw
  rw [next_eq l]
  refine ⟨⟨h1, ?_, ?_⟩, rfl, rfl, ?_⟩
  · show l.start ≤ l.pos + ((decodeRune (l.input.drop l.pos.toNat)).2 : Int)
    omega
  · show l.pos + ((decodeRune (l.input.drop l.pos.toNat)).2 : Int) ≤ (l.input.length : Int)
    omega
  · show l.pos ≤ l.pos + ((decodeRune (l.input.drop l.pos.toNat)).2 : Int)
    omega

theorem peek_eq (l : Lexer) :
    l.peek = ((l.next).1,
      { l with width := ((decodeRune (l.input.drop l.pos.toNat)).2 : Int) }) := by
  show ((l.next).1, (l.next).2.backup) = _
  rw [next_eq l]
  unfold Lexer.backup
  obtain ⟨inp, st, po, wi⟩ := l
  simp

theorem runeFound_EOF (valid : List Int) : runeFound valid EOF = false := by
  have h : validRune EOF = false := by decide
  simp [runeFound, h]

theorem runLenAux_nil (valid : List Int) (fuel : Nat) : runLenAux valid fuel [] = 0 := by
  cases fuel <;> rfl

theorem runLenAux_stable (valid : List Int) : ∀ (n m : Nat) (s : List Nat),
    s.length ≤ n → s.length ≤ m → runLenAux valid n s = runLenAux valid m s := by
  intro n
  induction n with
  | zero =>
    intro m s hn _
    have h : s = [] := List.length_eq_zero.mp (Nat.le_zero.mp hn)
    subst h
    rw [runLenAux_nil, runLenAux_nil]
  | succ n ih =>
    intro m s hn hm
    match s with
    | [] => rw [runLenAux_nil, runLenAux_nil]
    | b :: tail =>
      match m with
      | m + 1 =>
        show runLenAux valid (n + 1) (b :: tail) = runLenAux valid (m + 1) (b :: tail)
        unfold runLenAux
        split_ifs with hf
        · have hw1 := decodeRune_width_pos b tail
          have hlen : ((b :: tail).drop (decodeRune (b :: tail)).2).length
              = (b :: tail).length - (decodeRune (b :: tail)).2 := List.length_drop _ _
          have hcons : (b :: tail).length = tail.length + 1 := List.length_cons _ _
          rw [ih m ((b :: tail).drop (decodeRune (b :: tail)).2) (by omega) (by omega)]
        · rfl

theorem runLen_nil (valid : List Int) : runLen valid [] = 0 := rfl

theorem runLen_cons (valid : List Int) (b : Nat) (tail : List Nat) :
    runLen valid (b :: tail) =
      if runeFound valid (decodeRune (b :: tail)).1 then
        (decodeRune (b :: tail)).2 +
          runLen valid ((b :: tail).drop (decodeRune (b :: tail)).2)
      else 0 := by
  show runLenAux valid (tail.length + 1) (b :: tail) = _
  unfold runLenAux
  split_ifs with hf
  · have hw1 := decodeRune_width_pos b tail
    have hlen : ((b :: tail).drop (decodeRune (b :: tail)).2).length
        = (b :: tail).length - (decodeRune (b :: tail)).2 := List.length_drop _ _
    have hcons : (b :: tail).length = tail.length + 1 := List.length_cons _ _
    rw [runLenAux_stable valid tail.length
      ((b :: tail).drop (decodeRune (b :: tail)).2).length
      ((b :: tail).drop (decodeRune (b :: tail)).2) (by omega) (le_refl _)]
    rfl
  · rfl

theorem runLen_le (valid : List Int) : ∀ (n : Nat) (s : List Nat), s.length ≤ n →
    runLen valid s ≤ s.length := by
  intro n
  induction n with
  | zero =>
    intro s hs
    have h : s = [] := List.length_eq_zero.mp (Nat.le_zero.mp hs)
    subst h
    simp [runLen_nil]
  | succ n ih =>
    intro s hs
    match s with
    | [] => simp [runLen_nil]
    | b :: tail =>
      rw [runLen_cons]
      split_ifs with hf
      · have hw1 := decodeRune_width_pos b tail
        have hw2 := decodeRune_width_le (b :: tail)
        have hlen : ((b :: tail).drop (decodeRune (b :: tail)).2).length
            = (b :: tail).length - (decodeRune (b :: tail)).2 := List.length_drop _ _
        have hcons : (b :: tail).length = tail.length + 1 := List.length_cons _ _
        have hrec := ih ((b :: tail).drop (decodeRune (b :: tail)).2) (by omega)
        omega
      · simp

theorem maxRun_runLen (valid : List Int) : ∀ (n : Nat) (s : List Nat),
    s.length ≤ n → MaxRun valid s (runLen valid s) := by
  intro n
  induction n with
  | zero =>
    intro s hs
    have h : s = [] := List.length_eq_zero.mp (Nat.le_zero.mp hs)
    subst h
    rw [runLen_nil]
    exact MaxRun.atEnd
  | succ n ih =>
    intro s hs
    match s with
    | [] => rw [runLen_nil]; exact MaxRun.atEnd
    | b :: tail =>
      rw [runLen_cons]
      split_ifs with hf
      · have hw1 := decodeRune_width_pos b tail
        have hlen : ((b :: tail).drop (decodeRune (b :: tail)).2).length
            = (b :: tail).length - (decodeRune (b :: tail)).2 := List.length_drop _ _
        have hcons : (b :: tail).length = tail.length + 1 := List.length_cons _ _
        exact MaxRun.step _ _ (by simp) hf (ih _ (by omega))
      · exact MaxRun.stop _ (by simpa using hf)

theorem acceptRunAux_spec (valid : List Int) : ∀ (fuel : Nat) (l : Lexer),
    0 ≤ l.pos → l.pos ≤ (l.input.length : Int) →
    l.input.length - l.pos.toNat < fuel →
    (Lexer.acceptRunAux fuel l valid).input = l.input ∧
    (Lexer.acceptRunAux fuel l valid).start = l.start ∧
    (Lexer.acceptRunAux fuel l valid).pos =
      l.pos + (runLen valid (l.input.drop l.pos.toNat) : Int) := by
  intro fuel
  induction fuel with
  | zero => intro l _ _ hfuel; omega
  | succ fuel ih =>
    intro l h0 hle hfuel
    by_cases hEnd : (l.input.length : Int) ≤ l.pos
    · have hnil := drop_toNat_eq_nil l hEnd
      have hnext : l.next = (EOF, { l with width := 0 }) := by
        unfold Lexer.next
        rw [if_pos hEnd]
      refine ⟨?_, ?_, ?_⟩ <;>
        simp [Lexer.acceptRunAux, hnext, runeFound_EOF, Lexer.backup, hnil, runLen_nil]
    · push_neg at hEnd
      have hlen : (l.input.drop l.pos.toNat).length = l.input.length - l.pos.toNat :=
        List.length_drop _ _
      have hne : l.input.drop l.pos.toNat ≠ [] := by
        intro hc
        rw [hc] at hlen
        simp at hlen
        omega
      obtain ⟨b, tail, hbt⟩ := List.exists_cons_of_ne_nil hne
      have hw1 : 1 ≤ (decodeRune (b :: tail)).2 := decodeRune_width_pos b tail
      have hw2 : (decodeRune (b :: tail)).2 ≤ (b :: tail).length :=
        decodeRune_width_le _
      rw [hbt] at hlen
      have hfst : (l.next).1 = (decodeRune (b :: tail)).1 := by
        rw [next_fst, if_neg (by omega), hbt]
      have hnext : (l.next).2 = { l with width := ((decodeRune (b :: tail)).2 : Int), pos := l.pos + ((decodeRune (b :: tail)).2 : Int) } := by
        rw [next_eq l, hbt]
      have hgoal : Lexer.acceptRunAux (fuel + 1) l valid =
          if runeFound valid (l.next).1 then Lexer.acceptRunAux fuel (l.next).2 valid
          else (l.next).2.backup := rfl
      rw [hgoal, hfst, hnext, hbt]
      by_cases hf : runeFound valid (decodeRune (b :: tail)).1 = true
      · rw [if_pos hf]
        have hdd : l.input.drop (l.pos + ((decodeRune (b :: tail)).2 : Int)).toNat
            = (b :: tail).drop (decodeRune (b :: tail)).2 := by
          rw [← hbt, List.drop_drop]
          congr 1
          omega
        have h0' : (0 : Int) ≤ l.pos + ((decodeRune (b :: tail)).2 : Int) := by omega
        have hle' : l.pos + ((decodeRune (b :: tail)).2 : Int) ≤ (l.input.length : Int) := by
          omega
        have hm : l.input.length - (l.pos + ((decodeRune (b :: tail)).2 : Int)).toNat < fuel := by
          omega
        obtain ⟨hi, hs, hp⟩ := ih { l with width := ((decodeRune (b :: tail)).2 : Int), pos := l.pos + ((decodeRune (b :: tail)).2 : Int) } h0' hle' hm
        refine ⟨hi, hs, ?_⟩
        rw [hp]
        show l.pos + ((decodeRune (b :: tail)).2 : Int) +
            (runLen valid (l.input.drop (l.pos + ((decodeRune (b :: tail)).2 : Int)).toNat) : Int)
          = l.pos + (runLen valid (b :: tail) : Int)
        rw [hdd, runLen_cons, if_pos hf]
        push_cast
        ring
      · rw [if_neg hf]
        unfold Lexer.backup
        refine ⟨rfl, rfl, ?_⟩
        show l.pos + ((decodeRune (b :: tail)).2 : Int) - ((decodeRune (b :: tail)).2 : Int)
          = l.pos + (runLen valid (b :: tail) : Int)
        rw [runLen_cons, if_neg hf]
        simp

/-- Full characterization of `AcceptRun` from a cursor state satisfying
`0 ≤ pos ≤ len(input)`: the input and the token-start offset are unchanged
and the scan offset advances by exactly the length of the maximal matching
run. -/
theorem acceptRun_spec (l : Lexer) (valid : List Int)
    (h0 : 0 ≤ l.pos) (hle : l.pos ≤ (l.input.length : Int)) :
    (l.acceptRun valid).input = l.input ∧
    (l.acceptRun valid).start = l.start ∧
    (l.acceptRun valid).pos =
      l.pos + (runLen valid (l.input.drop l.pos.toNat) : Int) := by
  apply acceptRunAux_spec valid (l.input.length + 1) l h0 hle
  omega

theorem backup_next (l : Lexer) :
    ((l.next).2).backup =
      { l with width := ((decodeRune (l.input.drop l.pos.toNat)).2 : Int) } := by
  rw [next_eq l]
  unfold Lexer.backup
  obtain ⟨inp, st, po, wi⟩ := l
  simp

theorem accept_snd (l : Lexer) (v : List Int) :
    (l.accept v).2 =
      if runeFound v (l.next).1 = true then (l.next).2 else ((l.next).2).backup := by
  simp only [Lexer.accept]
  split_ifs <;> rfl

theorem sliceStr_self (inp : List Nat) (a : Int) : sliceStr inp a a = [] := by
  apply List.drop_eq_nil_of_le
  rw [List.length_take]
  exact Nat.min_le_left _ _

theorem sliceStr_zero_length (inp : List Nat) :
    sliceStr inp 0 (inp.length : Int) = inp := by
  unfold sliceStr
  simp

theorem sliceStr_append (inp : List Nat) (a b c : Int) (_h0 : 0 ≤ a) (hab : a ≤ b)
    (hbc : b ≤ c) (hc : c ≤ (inp.length : Int)) :
    sliceStr inp a b ++ sliceStr inp b c = sliceStr inp a c := by
  unfold sliceStr
  have hyl : (inp.take c.toNat).length = c.toNat := by
    rw [List.length_take]
    omega
  have h1 : (inp.take c.toNat).take b.toNat = inp.take b.toNat := by
    rw [List.take_take]
    congr 1
    omega
  rw [← h1]
  have h2 : a.toNat ≤ ((inp.take c.toNat).take b.toNat).length := by
    rw [List.length_take, hyl]
    omega
  conv_rhs => rw [← List.take_append_drop b.toNat (inp.take c.toNat)]
  rw [List.drop_append_of_le_length h2]

theorem accept_inv (l : Lexer) (v : List Int) (h : Inv l) :
    Inv (l.accept v).2 ∧ (l.accept v).2.start = l.start ∧
      (l.accept v).2.input = l.input ∧ l.pos ≤ (l.accept v).2.pos := by
  rw [accept_snd]
  split_ifs
  · exact next_inv l h
  · rw [backup_next]
    exact ⟨h, rfl, rfl, le_refl _⟩

theorem acceptRun_inv (l : Lexer) (v : List Int) (h : Inv l) :
    Inv (l.acceptRun v) ∧ (l.acceptRun v).start = l.start ∧
      (l.acceptRun v).input = l.input ∧ l.pos ≤ (l.acceptRun v).pos := by
  obtain ⟨h1, h2, h3⟩ := h
  obtain ⟨hi, hs, hp⟩ := acceptRun_spec l v (le_trans h1 h2) h3
  have hrl := runLen_le v (l.input.drop l.pos.toNat).length (l.input.drop l.pos.toNat)
    (le_refl _)
  rw [List.length_drop] at hrl
  refine ⟨⟨?_, ?_, ?_⟩, hs, hi, ?_⟩
  · rw [hs]; omega
  · rw [hs, hp]; omega
  · rw [hp, hi]; omega
  · rw [hp]; omega

theorem exec_append (l : Lexer) (xs ys : List Op) :
    exec l (xs ++ ys) =
      ((exec (exec l xs).1 ys).1, (exec l xs).2 ++ (exec (exec l xs).1 ys).2) := by
  induction xs generalizing l with
  | nil => simp [exec]
  | cons op rest ih =>
    simp only [List.cons_append, exec, List.append_eq, ih, List.append_assoc]

/-- Invariant preservation along any protocol-respecting trace: the input
never changes and `0 ≤ Start ≤ Pos ≤ len(input)` is preserved. -/
theorem exec_inv : ∀ (ops : List Op) (l : Lexer), Proto ops → Inv l →
    Inv (exec l ops).1 ∧ (exec l ops).1.input = l.input := by
  intro ops l hp
  induction hp generalizing l with
  | nil => intro h; exact ⟨h, rfl⟩
  | next k _ ih =>
    intro h
    obtain ⟨hi, _, hinp, _⟩ := next_inv l h
    obtain ⟨g1, g2⟩ := ih (l.next).2 hi
    constructor
    · show Inv (exec (l.next).2 k).1
      exact g1
    · show (exec (l.next).2 k).1.input = l.input
      rw [g2, hinp]
  | nextBackup k _ ih =>
    intro h
    have hb := backup_next l
    have hi : Inv ((l.next).2.backup) := by rw [hb]; exact h
    obtain ⟨g1, g2⟩ := ih _ hi
    constructor
    · show Inv (exec ((l.next).2.backup) k).1
      exact g1
    · show (exec ((l.next).2.backup) k).1.input = l.input
      rw [g2, hb]
  | peek k _ ih =>
    intro h
    have hpk := peek_eq l
    have hi : Inv (l.peek).2 := by rw [hpk]; exact h
    obtain ⟨g1, g2⟩ := ih _ hi
    constructor
    · show Inv (exec (l.peek).2 k).1
      exact g1
    · show (exec (l.peek).2 k).1.input = l.input
      rw [g2, hpk]
  | ignore k _ ih =>
    intro h
    obtain ⟨h1, h2, h3⟩ := h
    have hi : Inv l.ignore := ⟨le_trans h1 h2, le_refl _, h3⟩
    obtain ⟨g1, g2⟩ := ih _ hi
    exact ⟨g1, g2⟩
  | accept v k _ ih =>
    intro h
    obtain ⟨hi, _, hinp, _⟩ := accept_inv l v h
    obtain ⟨g1, g2⟩ := ih _ hi
    constructor
    · show Inv (exec (l.accept v).2 k).1
      exact g1
    · show (exec (l.accept v).2 k).1.input = l.input
      rw [g2, hinp]
  | acceptRun v k _ ih =>
    intro h
    obtain ⟨hi, _, hinp, _⟩ := acceptRun_inv l v h
    obtain ⟨g1, g2⟩ := ih _ hi
    constructor
    · show Inv (exec (l.acceptRun v) k).1
      exact g1
    · show (exec (l.acceptRun v) k).1.input = l.input
      rw [g2, hinp]
  | emit t k _ ih =>
    intro h
    obtain ⟨h1, h2, h3⟩ := h
    have hi : Inv (l.emit t).2 := ⟨le_trans h1 h2, le_refl _, h3⟩
    obtain ⟨g1, g2⟩ := ih _ hi
    exact ⟨g1, g2⟩

/-- Token concatenation along ignore-free protocol-respecting traces: the
emitted token texts tile the input exactly between the initial and the
final token-start offsets. -/
theorem exec_join : ∀ (ops : List Op) (l : Lexer), Proto ops → Op.ignore ∉ ops → Inv l →
    Inv (exec l ops).1 ∧ (exec l ops).1.input = l.input ∧
    l.start ≤ (exec l ops).1.start ∧
    ((exec l ops).2.map Token.val).flatten =
      sliceStr l.input l.start (exec l ops).1.start := by
  intro ops l hp
  induction hp generalizing l with
  | nil =>
    intro _ h
    exact ⟨h, rfl, le_refl _, (sliceStr_self l.input l.start).symm⟩
  | next k _ ih =>
    intro hni h
    obtain ⟨hi, hst, hinp, _⟩ := next_inv l h
    have hni' : Op.ignore ∉ k := fun hc => hni (List.mem_cons_of_mem _ hc)
    obtain ⟨g1, g2, g3, g4⟩ := ih (l.next).2 hni' hi
    refine ⟨g1, ?_, ?_, ?_⟩
    · show (exec (l.next).2 k).1.input = l.input
      rw [g2, hinp]
    · show l.start ≤ (exec (l.next).2 k).1.start
      rw [← hst]
      exact g3
    · show ((exec (l.next).2 k).2.map Token.val).flatten =
        sliceStr l.input l.start (exec (l.next).2 k).1.start
      rw [g4, hst, hinp]
  | nextBackup k _ ih =>
    intro hni h
    have hb := backup_next l
    have hni' : Op.ignore ∉ k :=
      fun hc => hni (List.mem_cons_of_mem _ (List.mem_cons_of_mem _ hc))
    have hi : Inv ((l.next).2.backup) := by rw [hb]; exact h
    obtain ⟨g1, g2, g3, g4⟩ := ih _ hni' hi
    refine ⟨g1, ?_, ?_, ?_⟩
    · show (exec ((l.next).2.backup) k).1.input = l.input
      rw [g2, hb]
    · show l.start ≤ (exec ((l.next).2.backup) k).1.start
      have hst : ((l.next).2.backup).start = l.start := by rw [hb]
      rw [← hst]
      exact g3
    · show ((exec ((l.next).2.backup) k).2.map Token.val).flatten =
        sliceStr l.input l.start (exec ((l.next).2.backup) k).1.start
      rw [g4, hb]
  | peek k _ ih =>
    intro hni h
    have hpk := peek_eq l
    have hni' : Op.ignore ∉ k := fun hc => hni (List.mem_cons_of_mem _ hc)
    have hi : Inv (l.peek).2 := by rw [hpk]; exact h
    obtain ⟨g1, g2, g3, g4⟩ := ih _ hni' hi
    refine ⟨g1, ?_, ?_, ?_⟩
    · show (exec (l.peek).2 k).1.input = l.input
      rw [g2, hpk]
    · show l.start ≤ (exec (l.peek).2 k).1.start
      have hst : (l.peek).2.start = l.start := by rw [hpk]
      rw [← hst]
      exact g3
    · show ((exec (l.peek).2 k).2.map Token.val).flatten =
        sliceStr l.input l.start (exec (l.peek).2 k).1.start
      rw [g4, hpk]
  | ignore k _ ih =>
    intro hni _
    exact absurd (List.mem_cons_self _ _) hni
  | accept v k _ ih =>
    intro hni h
    obtain ⟨hi, hst, hinp, _⟩ := accept_inv l v h
    have hni' : Op.ignore ∉ k := fun hc => hni (List.mem_cons_of_mem _ hc)
    obtain ⟨g1, g2, g3, g4⟩ := ih _ hni' hi
    refine ⟨g1, ?_, ?_, ?_⟩
    · show (exec (l.accept v).2 k).1.input = l.input
      rw [g2, hinp]
    · show l.start ≤ (exec (l.accept v).2 k).1.start
      rw [← hst]
      exact g3
    · show ((exec (l.accept v).2 k).2.map Token.val).flatten =
        sliceStr l.input l.start (exec (l.accept v).2 k).1.start
      rw [g4, hst, hinp]
  | acceptRun v k _ ih =>
    intro hni h
    obtain ⟨hi, hst, hinp, _⟩ := acceptRun_inv l v h
    have hni' : Op.ignore ∉ k := fun hc => hni (List.mem_cons_of_mem _ hc)
    obtain ⟨g1, g2, g3, g4⟩ := ih _ hni' hi
    refine ⟨g1, ?_, ?_, ?_⟩
    · show (exec (l.acceptRun v) k).1.input = l.input
      rw [g2, hinp]
    · show l.start ≤ (exec (l.acceptRun v) k).1.start
      rw [← hst]
      exact g3
    · show ((exec (l.acceptRun v) k).2.map Token.val).flatten =
        sliceStr l.input l.start (exec (l.acceptRun v) k).1.start
      rw [g4, hst, hinp]
  | emit t k _ ih =>
    intro hni h
    obtain ⟨h1, h2, h3⟩ := h
    have hi : Inv (l.emit t).2 := ⟨le_trans h1 h2, le_refl _, h3⟩
    have hni' : Op.ignore ∉ k := fun hc => hni (List.mem_cons_of_mem _ hc)
    obtain ⟨g1, g2, g3, g4⟩ := ih _ hni' hi
    have g2' : (exec (l.emit t).2 k).1.input = l.input := g2
    have g3' : l.pos ≤ (exec (l.emit t).2 k).1.start := g3
    have hlen : (exec (l.emit t).2 k).1.start ≤ (l.input.length : Int) := by
      obtain ⟨a1, a2, a3⟩ := g1
      rw [g2'] at a3
      omega
    refine ⟨g1, g2', le_trans h2 g3', ?_⟩
    show sliceStr l.input l.start l.pos ++ ((exec (l.emit t).2 k).2.map Token.val).flatten =
      sliceStr l.input l.start (exec (l.emit t).2 k).1.start
    rw [g4]
    exact sliceStr_append l.input l.start l.pos _ h1 h2 g3' hlen

theorem decode_malformed (s : List Nat) (hne : s ≠ []) (h : wellFormedFirst s = false) :
    decodeRune s = (0xFFFD, 1) := by
  rcases s with _ | ⟨b0, _ | ⟨b1, _ | ⟨b2, _ | ⟨b3, t⟩⟩⟩⟩
  · exact absurd rfl hne
  all_goals
    simp only [wellFormedFirst, Bool.or_eq_false_iff, decide_eq_false_iff_not,
      isCont, isAccept3, isAccept4, not_and, not_or, not_lt, not_le] at h
  all_goals
    simp only [decodeRune]
  all_goals
    split_ifs <;>
      first
      | rfl
      | (exfalso; simp only [isCont, isAccept3, isAccept4] at *; omega)

/-! ## The claims -/

/-- C4: For every reachable lexer state - the result of executing any
protocol-respecting trace of cursor operations (`Next`, `Backup`, `Emit`,
`Ignore`, `Accept`, `AcceptRun`, `Peek`) from a fresh scanner -
`Start ≤ Pos ≤ len(input)` holds.  The trace discipline `Proto` allows the
one permitted step of backtracking (a `Backup` immediately after a `Next`),
and the invariant holds after every operation of the trace. -/
theorem cursor_invariant (input : List Nat) (ops : List Op) (hp : Proto ops) :
    (exec (newLexer input) ops).1.start ≤ (exec (newLexer input) ops).1.pos ∧
    (exec (newLexer input) ops).1.pos ≤
      ((exec (newLexer input) ops).1.input.length : Int) := by
  have h0 : Inv (newLexer input) := ⟨le_refl _, le_refl _, by simp [newLexer]⟩
  obtain ⟨⟨_, h2, h3⟩, _⟩ := exec_inv ops (newLexer input) hp h0
  exact ⟨h2, h3⟩

/-- Witness for C4 at the concrete trace `[Next]` on input `"a"`. -/
theorem cursor_invariant_witness :
    Proto [Op.next] ∧
    ((exec (newLexer [97]) [Op.next]).1.start ≤ (exec (newLexer [97]) [Op.next]).1.pos ∧
     (exec (newLexer [97]) [Op.next]).1.pos ≤
       ((exec (newLexer [97]) [Op.next]).1.input.length : Int)) :=
  ⟨Proto.next [] Proto.nil, cursor_invariant [97] [Op.next] (Proto.next [] Proto.nil)⟩

/-- C6: From any state with `0 ≤ Pos ≤ len(input)`, `AcceptRun(valid)`
leaves the input and the token-start offset unchanged and moves the scan
offset to exactly past the maximal run of code points from `valid`
(backtracking the one non-matching decode); the bytes added to the pending
token are exactly that run, and the run is maximal with all its code
points found in `valid` (`MaxRun`). -/
theorem acceptRun_maximal (l : Lexer) (valid : List Int)
    (h0 : 0 ≤ l.pos) (hle : l.pos ≤ (l.input.length : Int)) :
    (l.acceptRun valid).input = l.input ∧
    (l.acceptRun valid).start = l.start ∧
    (l.acceptRun valid).pos =
      l.pos + (runLen valid (l.input.drop l.pos.toNat) : Int) ∧
    sliceStr l.input l.pos (l.acceptRun valid).pos =
      (l.input.drop l.pos.toNat).take (runLen valid (l.input.drop l.pos.toNat)) ∧
    MaxRun valid (l.input.drop l.pos.toNat) (runLen valid (l.input.drop l.pos.toNat)) := by
  obtain ⟨hi, hs, hp⟩ := acceptRun_spec l valid h0 hle
  refine ⟨hi, hs, hp, ?_, maxRun_runLen valid _ _ (le_refl _)⟩
  rw [hp]
  unfold sliceStr
  have hk := runLen_le valid (l.input.drop l.pos.toNat).length _ (le_refl _)
  rw [List.length_drop] at hk
  rw [show (l.pos + (runLen valid (l.input.drop l.pos.toNat) : Int)).toNat
      = l.pos.toNat + runLen valid (l.input.drop l.pos.toNat) from by omega]
  rw [List.drop_take]
  congr 1
  omega

/-- Witness for C6 on input `"aab"` with the valid set `{a}`. -/
theorem acceptRun_maximal_witness :
    (0 : Int) ≤ (Lexer.mk [97, 97, 98] 0 0 0).pos ∧
    (Lexer.mk [97, 97, 98] 0 0 0).pos ≤
      (((Lexer.mk [97, 97, 98] 0 0 0).input.length : Int)) ∧
    ((Lexer.mk [97, 97, 98] 0 0 0).acceptRun [97]).pos =
      (Lexer.mk [97, 97, 98] 0 0 0).pos +
        (runLen [97] ((Lexer.mk [97, 97, 98] 0 0 0).input.drop
          (Lexer.mk [97, 97, 98] 0 0 0).pos.toNat) : Int) :=
  ⟨by decide, by decide,
    (acceptRun_maximal (Lexer.mk [97, 97, 98] 0 0 0) [97] (by decide) (by decide)).2.2.1⟩

/-- C7: `Peek` returns exactly the rune `Next` would return and leaves the
scan offset unchanged; it is idempotent (a second `Peek` returns the same
rune and the same state), and a subsequent `Next` produces exactly the
rune and state it would have produced with no `Peek` at all. -/
theorem peek_idempotent (l : Lexer) :
    (l.peek).1 = (l.next).1 ∧
    (l.peek).2.pos = l.pos ∧
    ((l.peek).2).peek = l.peek ∧
    ((l.peek).2).next = l.next := by
  obtain ⟨inp, st, po, wi⟩ := l
  simp only [Lexer.peek, Lexer.next, Lexer.backup]
  by_cases h : (inp.length : Int) ≤ po
  · simp [h]
  · simp [h]

/-- C9: `Peek` leaves `Pos`, `Start` and the input unchanged but
overwrites `Width` with the byte width of the peeked code point (zero at
or past the end of input); hence a `Backup` after a `Peek` with no
intervening `Next` moves `Pos` backwards by the peeked width - before the
end of input strictly backwards, not a no-op. -/
theorem peek_width_backup (l : Lexer) (h0 : 0 ≤ l.pos) :
    (l.peek).2.pos = l.pos ∧
    (l.peek).2.start = l.start ∧
    (l.peek).2.input = l.input ∧
    (l.peek).2.width = ((decodeRune (l.input.drop l.pos.toNat)).2 : Int) ∧
    ((l.peek).2).backup.pos =
      l.pos - ((decodeRune (l.input.drop l.pos.toNat)).2 : Int) ∧
    ((l.input.length : Int) ≤ l.pos → (decodeRune (l.input.drop l.pos.toNat)).2 = 0) ∧
    (l.pos < (l.input.length : Int) → ((l.peek).2).backup.pos < l.pos) := by
  have hpk := peek_eq l
  refine ⟨by rw [hpk], by rw [hpk], by rw [hpk], by rw [hpk], ?_, ?_, ?_⟩
  · rw [hpk]
    rfl
  · intro h
    rw [drop_toNat_eq_nil l h]
    rfl
  · intro h
    have hlen : (l.input.drop l.pos.toNat).length = l.input.length - l.pos.toNat :=
      List.length_drop _ _
    have hne : l.input.drop l.pos.toNat ≠ [] := by
      intro hc
      rw [hc] at hlen
      simp at hlen
      omega
    obtain ⟨b, tail, hbt⟩ := List.exists_cons_of_ne_nil hne
    have hw1 : 1 ≤ (decodeRune (l.input.drop l.pos.toNat)).2 := by
      rw [hbt]
      exact decodeRune_width_pos b tail
    rw [hpk]
    show l.pos - ((decodeRune (l.input.drop l.pos.toNat)).2 : Int) < l.pos
    omega

/-- Witness for C9 on input `"ab"` at offset 0. -/
theorem peek_width_backup_witness :
    (0 : Int) ≤ (Lexer.mk [97, 98] 0 0 0).pos ∧
    ((Lexer.mk [97, 98] 0 0 0).peek).2.backup.pos =
      (Lexer.mk [97, 98] 0 0 0).pos -
        ((decodeRune ((Lexer.mk [97, 98] 0 0 0).input.drop
          (Lexer.mk [97, 98] 0 0 0).pos.toNat)).2 : Int) :=
  ⟨by decide, (peek_width_backup (Lexer.mk [97, 98] 0 0 0) (by decide)).2.2.2.2.1⟩

/-- C8: With a non-negative scan offset: at or past the end of input,
`Next` returns `EOF` and records width `0`, so an immediately following
`Backup` leaves `Pos` unchanged; before the end of input, `Next` strictly
increases `Pos`, and on bytes that do not start a well-formed UTF-8
encoding it returns the one-byte replacement `(0xFFFD, width 1)` so the
cursor still progresses. -/
theorem next_progress (l : Lexer) (h0 : 0 ≤ l.pos) :
    ((l.input.length : Int) ≤ l.pos →
      l.next = (EOF, { l with width := 0 }) ∧
      ((l.next).2).backup = { l with width := 0 }) ∧
    (l.pos < (l.input.length : Int) →
      l.pos < (l.next).2.pos ∧
      (wellFormedFirst (l.input.drop l.pos.toNat) = false →
        (l.next).1 = 0xFFFD ∧ (l.next).2.pos = l.pos + 1)) := by
  constructor
  · intro h
    have hfst : l.next = (EOF, { l with width := 0 }) := by
      unfold Lexer.next
      rw [if_pos h]
    refine ⟨hfst, ?_⟩
    rw [hfst]
    unfold Lexer.backup
    obtain ⟨inp, st, po, wi⟩ := l
    simp
  · intro h
    have hlen : (l.input.drop l.pos.toNat).length = l.input.length - l.pos.toNat :=
      List.length_drop _ _
    have hne : l.input.drop l.pos.toNat ≠ [] := by
      intro hc
      rw [hc] at hlen
      simp at hlen
      omega
    obtain ⟨b, tail, hbt⟩ := List.exists_cons_of_ne_nil hne
    have hw1 : 1 ≤ (decodeRune (l.input.drop l.pos.toNat)).2 := by
      rw [hbt]
      exact decodeRune_width_pos b tail
    constructor
    · rw [next_eq l]
      show l.pos < l.pos + ((decodeRune (l.input.drop l.pos.toNat)).2 : Int)
      omega
    · intro hbad
      have hdm := decode_malformed _ hne hbad
      constructor
      · rw [next_fst, if_neg (by omega), hdm]
      · rw [next_eq l, hdm]
        show l.pos + ((1 : Nat) : Int) = l.pos + 1
        simp

/-- Witness for C8 on the malformed one-byte input `0xFF`. -/
theorem next_progress_witness :
    (0 : Int) ≤ (Lexer.mk [255] 0 0 0).pos ∧
    ((Lexer.mk [255] 0 0 0).pos < ((Lexer.mk [255] 0 0 0).input.length : Int) →
      (Lexer.mk [255] 0 0 0).pos < ((Lexer.mk [255] 0 0 0).next).2.pos ∧
      (wellFormedFirst ((Lexer.mk [255] 0 0 0).input.drop
          (Lexer.mk [255] 0 0 0).pos.toNat) = false →
        ((Lexer.mk [255] 0 0 0).next).1 = 0xFFFD ∧
        ((Lexer.mk [255] 0 0 0).next).2.pos = (Lexer.mk [255] 0 0 0).pos + 1)) :=
  ⟨by decide, (next_progress (Lexer.mk [255] 0 0 0) (by decide)).2⟩

/-- C1 counterexample: a grammar that never calls `Errorf` but uses
`Ignore` - the trace `[Next, Ignore, Emit TokenEOF]` on the input `"a"` -
delivers only the proper end-of-input token `(-1, "", 1)`, so the
concatenation of all delivered `Val` fields is empty and differs from the
input: `Ignore`d text is dropped from the concatenation. -/
theorem concat_input_cex :
    Proto [Op.next, Op.ignore, Op.emit (-1)] ∧
    (exec (newLexer [97]) [Op.next, Op.ignore, Op.emit (-1)]).2 =
      [⟨-1, [], 1⟩] ∧
    ((exec (newLexer [97]) [Op.next, Op.ignore, Op.emit (-1)]).2.map
      Token.val).flatten ≠ [97] :=
  ⟨Proto.next _ (Proto.ignore _ (Proto.emit _ _ Proto.nil)), by decide, by decide⟩

/-- C1 (amended): for every input and protocol-respecting grammar trace
that never calls `Errorf` (the trace alphabet has no errorf) and never
calls `Ignore`, if the grammar's emissions cover the whole input (the
token-start offset has reached `len(input)`), then finishing with
`Emit(TokenEOF)` yields tokens whose `Val` fields concatenate, in delivery
order, to exactly the original input, and the final token is the
end-of-input token with empty text at position `len(input)`. -/
theorem concat_input_amended (input : List Nat) (ops : List Op)
    (hp : Proto ops) (hni : Op.ignore ∉ ops)
    (hall : (exec (newLexer input) ops).1.start = (input.length : Int)) :
    ((exec (newLexer input) (ops ++ [Op.emit (-1)])).2.map Token.val).flatten = input ∧
    (exec (newLexer input) (ops ++ [Op.emit (-1)])).2.getLast? =
      some ⟨-1, [], (input.length : Int)⟩ := by
  have h0 : Inv (newLexer input) := ⟨le_refl _, le_refl _, by simp [newLexer]⟩
  obtain ⟨hinv, hinp, _, hjoin⟩ := exec_join ops (newLexer input) hp hni h0
  have hinp' : (exec (newLexer input) ops).1.input = input := hinp
  obtain ⟨i1, i2, i3⟩ := hinv
  rw [hinp'] at i3
  have hpos : (exec (newLexer input) ops).1.pos = (input.length : Int) := by omega
  have hjoin2 : ((exec (newLexer input) ops).2.map Token.val).flatten =
      sliceStr input 0 (input.length : Int) := by
    rw [hall] at hjoin
    exact hjoin
  have htokeq : (((exec (newLexer input) ops).1).emit (-1)).1 =
      (⟨-1, [], (input.length : Int)⟩ : Token) := by
    show (⟨-1, sliceStr (exec (newLexer input) ops).1.input
        (exec (newLexer input) ops).1.start (exec (newLexer input) ops).1.pos,
        (exec (newLexer input) ops).1.start⟩ : Token) = _
    rw [hinp', hall, hpos, sliceStr_self]
  have hlist : (exec (exec (newLexer input) ops).1 [Op.emit (-1)]).2 =
      [(⟨-1, [], (input.length : Int)⟩ : Token)] := by
    show [(((exec (newLexer input) ops).1).emit (-1)).1] ++ [] = _
    rw [htokeq]
    rfl
  rw [exec_append, hlist]
  constructor
  · rw [List.map_append, List.flatten_append, hjoin2, sliceStr_zero_length]
    simp
  · exact List.getLast?_concat _

/-- Witness for C1 (amended) on input `"ab"` with the trace
`[Next, Next, Emit 1]`. -/
theorem concat_input_amended_witness :
    Proto [Op.next, Op.next, Op.emit 1] ∧
    Op.ignore ∉ [Op.next, Op.next, Op.emit 1] ∧
    (exec (newLexer [97, 98]) [Op.next, Op.next, Op.emit 1]).1.start =
      ((([97, 98] : List Nat).length : Int)) ∧
    (((exec (newLexer [97, 98])
        ([Op.next, Op.next, Op.emit 1] ++ [Op.emit (-1)])).2.map Token.val).flatten =
      [97, 98] ∧
    (exec (newLexer [97, 98]) ([Op.next, Op.next, Op.emit 1] ++ [Op.emit (-1)])).2.getLast? =
      some ⟨-1, [], (([97, 98] : List Nat).length : Int)⟩) :=
  ⟨Proto.next _ (Proto.next _ (Proto.emit _ _ Proto.nil)), by decide, by decide,
    concat_input_amended [97, 98] [Op.next, Op.next, Op.emit 1]
      (Proto.next _ (Proto.next _ (Proto.emit _ _ Proto.nil))) (by decide) (by decide)⟩

/-- C2 counterexample: a grammar whose single state function is the
idiomatic `return l.Errorf("x")`.  The first `NextToken` delivers the
error token (a terminal token), after which the state is nil and the
buffer is empty; the very next `NextToken` call executes
`l.state = l.state(l)` with `l.state == nil` - a nil function call, i.e. a
runtime panic - instead of returning a terminal token again. -/
theorem nextToken_terminal_cex :
    nextTokenAux (fun _ => Body.errorfB [120] (fun nxt => Body.ret nxt)) 5
        ⟨newLexer [97], [], some 0, 0⟩ =
      NTResult.tok ⟨-2, [120], 0⟩ ⟨newLexer [97], [], none, 0⟩ ∧
    nextTokenAux (fun _ => Body.errorfB [120] (fun nxt => Body.ret nxt)) 5
        ⟨newLexer [97], [], none, 0⟩ = NTResult.panicNilState :=
  ⟨by decide, by decide⟩

/-- C2 (amended): after a terminal token has been returned, a further
`NextToken` call returns a buffered token, without invoking any state
function, only as long as the channel buffer is non-empty; once the buffer
is empty (the usual case immediately after the terminal token), the call
invokes the nil state function and panics.  The consumer must stop calling
`NextToken` after receiving an error or end-of-input token. -/
theorem nextToken_terminal_amended (g : Nat → Body) (s : Scan) (fuel : Nat) :
    (s.state = none → s.buf = [] →
      nextTokenAux g (fuel + 1) s = NTResult.panicNilState) ∧
    (∀ t rest, s.buf = t :: rest →
      nextTokenAux g (fuel + 1) s =
        NTResult.tok t { s with buf := rest, lastPos := t.pos }) := by
  obtain ⟨lx, bf, st, lp⟩ := s
  constructor
  · intro h1 h2
    replace h1 : st = none := h1
    replace h2 : bf = [] := h2
    subst h1
    subst h2
    rfl
  · intro t rest h
    replace h : bf = t :: rest := h
    subst h
    rfl

/-- Witness for C2 (amended): both branches at concrete scanner states. -/
theorem nextToken_terminal_amended_witness :
    ((⟨newLexer [], [], none, 0⟩ : Scan).state = none) ∧
    ((⟨newLexer [], [], none, 0⟩ : Scan).buf = []) ∧
    nextTokenAux (fun _ => Body.ret none) 1 ⟨newLexer [], [], none, 0⟩ =
      NTResult.panicNilState ∧
    nextTokenAux (fun _ => Body.ret none) 1
        ⟨newLexer [], [⟨-1, [], 0⟩], none, 0⟩ =
      NTResult.tok ⟨-1, [], 0⟩ ⟨newLexer [], [], none, 0⟩ :=
  ⟨rfl, rfl,
    (nextToken_terminal_amended (fun _ => Body.ret none) ⟨newLexer [], [], none, 0⟩ 0).1
      rfl rfl,
    (nextToken_terminal_amended (fun _ => Body.ret none)
      ⟨newLexer [], [⟨-1, [], 0⟩], none, 0⟩ 0).2 ⟨-1, [], 0⟩ [] rfl⟩

/-- C5: When the current state function is the idiomatic
`return l.Errorf(...)` (modelled with the formatted message `msg`) and the
channel buffer is empty, the next `NextToken` call delivers exactly one
token - type `-2` (`TokenError`), text the formatted message, position the
token-start offset `Start` at the moment of the call - and the next state
is nil, so no state function ever runs afterwards: the scan has ended
permanently (a later `NextToken` reaches the nil state instead of any
grammar code). -/
theorem errorf_terminal (g : Nat → Body) (i : Nat) (msg : List Nat) (s : Scan)
    (fuel : Nat) (hg : g i = Body.errorfB msg (fun nxt => Body.ret nxt))
    (hbuf : s.buf = []) (hst : s.state = some i) :
    nextTokenAux g (fuel + 2) s =
      NTResult.tok ⟨-2, msg, s.lex.start⟩ ⟨s.lex, [], none, s.lex.start⟩ ∧
    (∀ f, nextTokenAux g (f + 1) ⟨s.lex, [], none, s.lex.start⟩ =
      NTResult.panicNilState) := by
  obtain ⟨lx, bf, st, lp⟩ := s
  replace hbuf : bf = [] := hbuf
  replace hst : st = some i := hst
  subst hbuf
  subst hst
  constructor
  · have h1 : nextTokenAux g (fuel + 2) ⟨lx, [], some i, lp⟩ =
        match execBody lx [] (g i) with
        | BodyOut.blocked => NTResult.blockedSend
        | BodyOut.ok l2 buf2 nxt =>
          nextTokenAux g (fuel + 1) ⟨l2, buf2, nxt, lp⟩ := rfl
    rw [h1, hg]
    rfl
  · intro f
    rfl

/-- Witness for C5 at a concrete one-state grammar over input `"a"`. -/
theorem errorf_terminal_witness :
    ((fun _ : Nat => Body.errorfB [120] (fun nxt => Body.ret nxt)) 0 =
      Body.errorfB [120] (fun nxt => Body.ret nxt)) ∧
    ((⟨newLexer [97], [], some 0, 7⟩ : Scan).buf = []) ∧
    ((⟨newLexer [97], [], some 0, 7⟩ : Scan).state = some 0) ∧
    nextTokenAux (fun _ => Body.errorfB [120] (fun nxt => Body.ret nxt)) 2
        ⟨newLexer [97], [], some 0, 7⟩ =
      NTResult.tok ⟨-2, [120], (newLexer [97]).start⟩
        ⟨newLexer [97], [], none, (newLexer [97]).start⟩ :=
  ⟨rfl, rfl, rfl,
    (errorf_terminal (fun _ => Body.errorfB [120] (fun nxt => Body.ret nxt)) 0 [120]
      ⟨newLexer [97], [], some 0, 7⟩ 0 rfl rfl rfl).1⟩

/-- C3 (refuted; the code races where the spec promises sequentiality): in
the interleaving model read off the source, a configuration in which both
drivers are inside a state-function invocation at the same time is
reachable from the configuration `NewLexer` leaves behind.  The background
task begins an invocation (its only guard: `state != nil`, lexer.go:73-74)
and the consumer, seeing an empty channel, takes the `select`'s `default`
branch and begins its own inline invocation concurrently (lexer.go:90-91);
no synchronization prevents the overlap. -/
theorem run_nextToken_overlap :
    ∃ c : DriverCfg, Relation.ReflTransGen DriverStep initCfg c ∧
      c.runBusy = true ∧ c.consBusy = true := by
  refine ⟨⟨true, true, true, true⟩, ?_, rfl, rfl⟩
  have s1 : DriverStep initCfg ⟨true, true, true, false⟩ :=
    DriverStep.runInvoke initCfg rfl rfl
  have s2 : DriverStep ⟨true, true, true, false⟩ ⟨true, true, true, true⟩ :=
    DriverStep.consInvoke ⟨true, true, true, false⟩ rfl rfl
  exact Relation.ReflTransGen.tail (Relation.ReflTransGen.single s1) s2

/-- C10: `Token.String` returns the literal `"EOF"` when the type is the
end-of-input value `-1`, the raw (unquoted) value text when the type is
the error value `-2`, and otherwise the Go-quoted form of the value,
truncated to its first 10 characters and followed by `"..."` exactly when
the byte length of the value exceeds 10 - for every `unicode.IsPrint`
table `p`. -/
theorem token_string_cases (p : Int → Bool) (t : Token) :
    (t.typ = -1 → tokenString p t = [69, 79, 70]) ∧
    (t.typ = -2 → tokenString p t = t.val) ∧
    (t.typ ≠ -1 → t.typ ≠ -2 →
      tokenString p t =
        if 10 < t.val.length
        then goQuote p (truncRunes 10 t.val) ++ [46, 46, 46]
        else goQuote p t.val) := by
  refine ⟨?_, ?_, ?_⟩
  · intro h
    unfold tokenString
    rw [h]
    norm_num
  · intro h
    unfold tokenString
    rw [h]
    norm_num
  · intro h1 h2
    unfold tokenString
    rw [if_neg h1, if_neg h2]

/-- Witness for C10: the three branches at concrete tokens, with the
ASCII print table. -/
theorem token_string_cases_witness :
    ((⟨-1, [], 0⟩ : Token).typ = -1 ∧
      tokenString (fun r => 32 ≤ r && r < 127) ⟨-1, [], 0⟩ = [69, 79, 70]) ∧
    ((⟨-2, [104, 105], 0⟩ : Token).typ = -2 ∧
      tokenString (fun r => 32 ≤ r && r < 127) ⟨-2, [104, 105], 0⟩ = [104, 105]) ∧
    tokenString (fun r => 32 ≤ r && r < 127) ⟨3, [104, 105], 0⟩ =
      (if 10 < ([104, 105] : List Nat).length
       then goQuote (fun r => 32 ≤ r && r < 127) (truncRunes 10 [104, 105]) ++ [46, 46, 46]
       else goQuote (fun r => 32 ≤ r && r < 127) [104, 105]) :=
  ⟨⟨rfl, (token_string_cases (fun r => 32 ≤ r && r < 127) ⟨-1, [], 0⟩).1 rfl⟩,
   ⟨rfl, (token_string_cases (fun r => 32 ≤ r && r < 127) ⟨-2, [104, 105], 0⟩).2.1 rfl⟩,
   (token_string_cases (fun r => 32 ≤ r && r < 127) ⟨3, [104, 105], 0⟩).2.2
     (by decide) (by decide)⟩

end GoLexer
